import Mathlib

set_option maxRecDepth 8000

namespace MinecraftTranslator

/-!
Shallow embedding of the extraction/translation core of the
minecraft_translator repository: the token guard and text heuristics
(src/translators.py, src/utils/helpers.py), the chunk splitter, the
translation engine (Translator.translate_many and _translate_flat), the
retry loop (_retry_call), the translation cache (src/utils/cache.py) and
the mirror orchestrator counters (src/mirrorer.py).  Python's mutable
state is passed explicitly; the external provider is an abstract
capability returning Option (None models a call that failed after the
retry loop gave up); machine text is Lean String (a list of Unicode
code points, matching Python str indexing and len).
-/

/-! ### Character classes of the protective regexes -/

/-- ASCII digit, the regex class matched by a backslash-d in the source
patterns (all placeholder digits in the source data are ASCII). -/
def isDig (c : Char) : Bool := decide ('0' ≤ c) && decide (c ≤ '9')

/-- ASCII Latin letter, regex class A-Za-z (RE_LATIN in translators.py
and helpers.py). -/
def isLatin (c : Char) : Bool :=
  (decide ('A' ≤ c) && decide (c ≤ 'Z')) || (decide ('a' ≤ c) && decide (c ≤ 'z'))

/-- Cyrillic letter, regex class of RE_CYR in translators.py: the two
contiguous ranges U+0410..U+044F plus Yo in both cases. -/
def isCyr (c : Char) : Bool :=
  (decide ('А' ≤ c) && decide (c ≤ 'я')) || c = 'Ё' || c = 'ё'

/-- Word character for the brace placeholder pattern.  Python's word
class is Unicode-aware; this covers the scripts that occur in this
development: ASCII letters, digits, underscore and Cyrillic letters. -/
def isWordChar (c : Char) : Bool :=
  isLatin c || isDig c || c = '_' || isCyr c

/-- Character class A-Za-z0-9 underscore dot dash: the component before
the colon in RE_NAMESPACE (both in translators.py and helpers.py), and
also the component after the colon in helpers.py. -/
def isNsHead (c : Char) : Bool :=
  isLatin c || isDig c || c = '_' || c = '.' || c = '-'

/-- Character class of the component after the colon in RE_NAMESPACE of
translators.py: same as the head class plus the slash. -/
def isNsTail (c : Char) : Bool := isNsHead c || c = '/'

/-- Heavy structural symbols rejected by RE_HEAVY_SYMBOLS in
helpers.py: braces, angle brackets, dollar, percent, caret, backslash,
square brackets, pipe, backtick, tilde (braces and backtick are spelled
by code point). -/
def isHeavy (c : Char) : Bool :=
  c = Char.ofNat 123 || c = Char.ofNat 125 || c = '<' || c = '>' ||
  c = '$' || c = '%' || c = '^' || c = '\\' || c = '[' || c = ']' ||
  c = '|' || c = Char.ofNat 96 || c = '~'

/-- Python whitespace class for str.strip and the backslash-s of the
sentence splitter, restricted to the ASCII whitespace occurring in this
development. -/
def isPySpace (c : Char) : Bool :=
  c = ' ' || c = '\t' || c = '\n' || c = '\r' || c = Char.ofNat 11 || c = Char.ofNat 12

/-! ### RE_PLACEHOLDER and RE_NAMESPACE matching (translators.py lines 20-24)

The Python patterns are matched with backtracking, but for these
particular patterns backtracking never changes the outcome (each
quantified sub-pattern is delimited by a character that cannot continue
it), so a deterministic greedy matcher is extensionally the regex
engine's behaviour.  Each matcher returns the length of the match
starting at the head of the list, or none. -/

/-- Match length at the head of the list for RE_PLACEHOLDER: a percent
placeholder (optional argument index with dollar, optional minus,
optional width digits, optional dot-precision, final conversion letter
in s d i f x) or a brace placeholder (one or more word-or-dot characters
between braces). -/
def placeholderLenAt (l : List Char) : Option Nat :=
  match l with
  | [] => none
  | c :: r =>
    if c = '%' then
      let d := (r.takeWhile isDig).length
      let n1 := if 0 < d && (r.drop d).head? = some '$' then d + 1 else 0
      let r1 := r.drop n1
      let n2 := if r1.head? = some '-' then 1 else 0
      let r2 := r1.drop n2
      let d2 := (r2.takeWhile isDig).length
      let r3 := r2.drop d2
      let d3 := ((r3.drop 1).takeWhile isDig).length
      let n4 := if r3.head? = some '.' && 0 < d3 then 1 + d3 else 0
      let r4 := r3.drop n4
      match r4.head? with
      | some e =>
        if e = 's' || e = 'd' || e = 'i' || e = 'f' || e = 'x' then
          some (1 + n1 + n2 + d2 + n4 + 1)
        else none
      | none => none
    else if c = Char.ofNat 123 then
      let w := (r.takeWhile (fun ch => isWordChar ch || ch = '.')).length
      if 0 < w && (r.drop w).head? = some (Char.ofNat 125) then some (w + 2) else none
    else none

/-- Match length at the head of the list for RE_NAMESPACE: a nonempty
head-class run, a colon, a nonempty tail-class run.  The tail class is a
parameter because translators.py admits the slash there while helpers.py
does not. -/
def namespaceLenAt (tailClass : Char → Bool) (l : List Char) : Option Nat :=
  let a := (l.takeWhile isNsHead).length
  if 0 < a && (l.drop a).head? = some ':' then
    let b := ((l.drop (a + 1)).takeWhile tailClass).length
    if 0 < b then some (a + 1 + b) else none
  else none

/-- Scanner for re.findall: attempt a match at every position from left
to right; on a match emit the lexeme and continue after it, otherwise
advance one character.  Fuel is the initial list length; every step
consumes at least one character, so the fuel never runs out. -/
def findallAux (matchLen : List Char → Option Nat) : Nat → List Char → List String
  | 0, _ => []
  | _, [] => []
  | fuel + 1, l@(_ :: rest) =>
    match matchLen l with
    | some n => String.mk (l.take n) :: findallAux matchLen fuel (l.drop n)
    | none => findallAux matchLen fuel rest

/-- All matches of a pattern in a string, leftmost non-overlapping. -/
def findall (matchLen : List Char → Option Nat) (s : List Char) : List String :=
  findallAux matchLen s.length s

/-! ### Token extraction and language heuristics (translators.py lines 28-39) -/

/-- Lexicographic Boolean comparison of strings by code point, matching
Python string comparison used by sorted. -/
def strLeChars : List Char → List Char → Bool
  | [], _ => true
  | _ :: _, [] => false
  | a :: as, b :: bs => if a = b then strLeChars as bs else decide (a < b)

/-- Boolean string order used to sort token lists. -/
def strLeB (a b : String) : Bool := strLeChars a.data b.data

/-- Insert a string into a sorted list, keeping stability. -/
def insertSorted (x : String) : List String → List String
  | [] => [x]
  | y :: ys => if strLeB x y then x :: y :: ys else y :: insertSorted x ys

/-- Stable ascending sort of a token list, as Python sorted. -/
def sortTokens : List String → List String
  | [] => []
  | x :: xs => insertSorted x (sortTokens xs)

/-- Function underscore-extract-underscore-tokens of translators.py
lines 28-34: the sorted sequence of all placeholder matches followed by
all namespaced-identifier matches; the empty string yields no tokens. -/
def extractTokens (s : String) : List String :=
  if s = "" then []
  else sortTokens (findall placeholderLenAt s.data ++ findall (namespaceLenAt isNsTail) s.data)

/-- Function underscore-looks-underscore-russian of translators.py
lines 37-39: the string has a Cyrillic letter and no Latin letter. -/
def looksRussian (s : String) : Bool :=
  s.data.any isCyr && !(s.data.any isLatin)

/-! ### Sentence splitting and chunking (translators.py lines 43-89) -/

/-- Python str.strip: drop leading and trailing whitespace. -/
def pyStrip (s : String) : String :=
  String.mk (((s.data.dropWhile isPySpace).reverse.dropWhile isPySpace).reverse)

/-- Sentence-end punctuation of the splitting pattern: period, bang,
question mark, horizontal ellipsis. -/
def isSentEnd (c : Char) : Bool := c = '.' || c = '!' || c = '?' || c = '…'

/-- Worker for re.split on the pattern "whitespace run preceded by a
sentence-end character" (the underscore-SENTENCE-SPLIT-underscore-RE of
translators.py line 43): a whitespace run whose immediately preceding
character is sentence-end punctuation is a separator and is consumed
whole; everything else accumulates into the current piece.  Fuel is the
list length; each step consumes at least one character. -/
def sentenceSplitAux (fuel : Nat) (prev : Option Char) (acc : List Char) (l : List Char) : List String :=
  match fuel, l with
  | _, [] => [String.mk acc.reverse]
  | 0, rest => [String.mk (acc.reverse ++ rest)]
  | fuel + 1, c :: rest =>
    if isPySpace c && prev.elim false isSentEnd then
      let run := (c :: rest).takeWhile isPySpace
      String.mk acc.reverse :: sentenceSplitAux fuel none [] ((c :: rest).drop run.length)
    else
      sentenceSplitAux fuel (some c) (c :: acc) rest

/-- Split a string into sentences at sentence-end punctuation followed
by whitespace. -/
def sentenceSplit (s : String) : List String :=
  sentenceSplitAux s.data.length none [] s.data

/-- Hard character split of one oversized sentence into pieces of at
most maxLen characters, mirroring the range loop of translators.py
lines 82-83.  Fuel is the list length; meaningful for positive maxLen
(the Python range with step zero would raise). -/
def hardSplitAux (maxLen : Nat) : Nat → List Char → List String
  | 0, _ => []
  | _, [] => []
  | fuel + 1, l => String.mk (l.take maxLen) :: hardSplitAux maxLen fuel (l.drop maxLen)

/-- Hard split of a sentence into length-bounded pieces. -/
def hardSplit (maxLen : Nat) (s : String) : List String :=
  hardSplitAux maxLen s.data.length s.data

/-- Join a list of strings with single spaces, as the Python
space-join used for chunk reassembly. -/
def joinSp : List String → String
  | [] => ""
  | [a] => a
  | a :: rest => a ++ " " ++ joinSp rest

/-- Accumulation loop of underscore-split-underscore-text-underscore-
for-underscore-translation, lines 63-87: greedily pack stripped
sentences into chunks of at most maxLen characters, flushing the
current chunk when the next sentence does not fit and hard-splitting a
single sentence that alone exceeds the limit. -/
def splitTextLoop (maxLen : Nat) (cur : String) : List String → List String
  | [] => if cur ≠ "" then [cur] else []
  | sent :: rest =>
    let sent := pyStrip sent
    if sent = "" then splitTextLoop maxLen cur rest
    else
      let candidate := if cur = "" then sent else cur ++ " " ++ sent
      if candidate.length ≤ maxLen then splitTextLoop maxLen candidate rest
      else
        let pre := if cur ≠ "" then [cur] else []
        if sent.length ≤ maxLen then pre ++ splitTextLoop maxLen sent rest
        else pre ++ hardSplit maxLen sent ++ splitTextLoop maxLen "" rest

/-- Function underscore-split-underscore-text-underscore-for-underscore-
translation of translators.py lines 49-89: strip the text; if empty or
already within the limit return it as the single chunk, else split into
sentences and pack. -/
def splitTextForTranslation (text : String) (maxLen : Nat) : List String :=
  let text := pyStrip text
  if text = "" || text.length ≤ maxLen then [text]
  else splitTextLoop maxLen "" (sentenceSplit text)

/-! ### Translation cache contents (src/utils/cache.py, in-memory map)

The in-memory dictionary of TranslationCache is an association list
where put prepends and get returns the most recent binding, which is
extensionally Python dict assignment and lookup. -/

/-- In-memory cache contents: source text mapped to translated text. -/
abbrev CacheData := List (String × String)

/-- TranslationCache.get: the translation for a source string, if any. -/
def cacheGet (c : CacheData) (src : String) : Option String :=
  c.lookup src

/-- TranslationCache.put: store a translation. -/
def cachePut (c : CacheData) (src dst : String) : CacheData :=
  (src, dst) :: c

/-! ### The provider capability and the engine configuration -/

/-- Abstract provider: a batch call returns an ordered list (or fails,
after the retry loop gave up, modeled as none), a single call returns
one translation or fails.  These stand for the retry-wrapped
underscore-request-underscore-batch and underscore-request-underscore-
single of translators.py. -/
structure Provider where
  batch : List String → Option (List String)
  single : String → Option String

/-- Configuration of the Translator class (translators.py lines
115-142): strict validation toggle, fallback-caching toggle, batch
size, maximum chunk length, and the provider capability. -/
structure Translator where
  strict : Bool
  cacheFallbacks : Bool
  batchSize : Nat
  maxChunkLen : Nat
  provider : Provider

/-- One provider invocation, recorded for call-accounting properties. -/
inductive PCall where
  | batchCall (texts : List String)
  | singleCall (text : String)
deriving DecidableEq, Repr

/-- Strings sent to the provider by one call. -/
def PCall.strings : PCall → List String
  | .batchCall l => l
  | .singleCall t => [t]

/-! ### The inner flat translation pass (Translator._translate_flat, lines 225-298) -/

/-- First loop of underscore-translate-underscore-flat (lines 240-252):
an empty or already-Russian string resolves to itself, a cached string
resolves to its cached translation, anything else is unresolved. -/
def skipOrCached (cache : CacheData) (t : String) : Option String :=
  if t = "" || looksRussian t then some t else cacheGet cache t

/-- One step of collecting the unique unresolved strings: a resolved or
already-collected string is dropped, anything else is appended. -/
def uniqStep (cache : CacheData) (acc : List String) (t : String) : List String :=
  if (skipOrCached cache t).isSome then acc
  else if acc.contains t then acc
  else acc ++ [t]

/-- Unique unresolved strings in first-occurrence order (the keys of
uniq-map in lines 249-252). -/
def buildUniq (cache : CacheData) (texts : List String) : List String :=
  texts.foldl (uniqStep cache) []

/-- Worker for batching with fuel (the initial list length suffices,
every step of the offset loop consumes at least one element). -/
def chunksOfAux (n : Nat) : Nat → List α → List (List α)
  | _, [] => []
  | 0, l => [l]
  | fuel + 1, l =>
    if n = 0 then [l] else l.take n :: chunksOfAux n fuel (l.drop n)

/-- Consecutive batches of at most n elements (the offset loop of line
261).  For n = 0 the Python range would raise; the value [l] here is
never reached by the engine, whose batch size is positive. -/
def chunksOf (n : Nat) (l : List α) : List (List α) :=
  chunksOfAux n l.length l

/-- Per-item fallback of lines 269-274: each batch member is retried
alone; a failed single call degrades to the source string. -/
def singleFallback (tr : Translator) (chunk : List String) : List String × List PCall :=
  (chunk.map (fun src => (tr.provider.single src).getD src),
   chunk.map PCall.singleCall)

/-- Batch resolution of lines 264-274: ask the provider for the whole
batch; on failure or on a response of the wrong length fall back to
single-item calls. -/
def resolveBatch (tr : Translator) (chunk : List String) : List String × List PCall :=
  match tr.provider.batch chunk with
  | some l =>
    if l.length = chunk.length then (l, [PCall.batchCall chunk])
    else
      let fb := singleFallback tr chunk
      (fb.1, PCall.batchCall chunk :: fb.2)
  | none =>
    let fb := singleFallback tr chunk
    (fb.1, PCall.batchCall chunk :: fb.2)

/-- Strict validation of lines 278-281: when the sorted token sequence
of the output differs from that of the source and strict mode is on,
the translation is discarded and the source is kept. -/
def validateOut (tr : Translator) (src out : String) : String :=
  if extractTokens out ≠ extractTokens src ∧ tr.strict = true then src else out

/-- Validation-and-store loop of lines 277-285 over one batch (the zip
truncates at the shorter list, as in Python): record the validated
output for each source and write it to the cache unless it is an
identity fallback and fallback caching is off. -/
def storeBatch (tr : Translator) : List String → List String → CacheData → List (String × String) × CacheData
  | [], _, cache => ([], cache)
  | _ :: _, [], cache => ([], cache)
  | src :: cs, out :: os, cache =>
    let o := validateOut tr src out
    let cache1 := if o ≠ src ∨ tr.cacheFallbacks = true then cachePut cache src o else cache
    let rec2 := storeBatch tr cs os cache1
    ((src, o) :: rec2.1, rec2.2)

/-- Batch loop of lines 261-290: resolve each batch, validate and store
its outputs, accumulate the outputs-for-uniq mapping and the provider
call log. -/
def runBatches (tr : Translator) (cache : CacheData) : List (List String) → CacheData × List (String × String) × List PCall
  | [] => (cache, [], [])
  | chunk :: rest =>
    let rb := resolveBatch tr chunk
    let sb := storeBatch tr chunk rb.1 cache
    let rec2 := runBatches tr sb.2 rest
    (rec2.1, sb.1 ++ rec2.2.1, rb.2 ++ rec2.2.2)

/-- Translator.underscore-translate-underscore-flat, lines 225-298:
resolve skips and cache hits against the incoming cache, translate the
unique remainder in batches, then scatter: every unresolved string
takes the output recorded for it (defaulting to itself, line 294).
Returns the results, the updated cache and the provider call log. -/
def translateFlat (tr : Translator) (cache : CacheData) (texts : List String) : List String × CacheData × List PCall :=
  let uniq := buildUniq cache texts
  let rb := runBatches tr cache (chunksOf tr.batchSize uniq)
  (texts.map (fun t =>
    match skipOrCached cache t with
    | some r => r
    | none => (rb.2.1.lookup t).getD t),
   rb.1, rb.2.2)

/-! ### The public batch entry point (Translator.translate_many, lines 156-221) -/

/-- Planning record for one input string of translate-many: the source
text, the prefilled result when the string is empty, Russian or cached
(lines 176-187), and its chunks otherwise (lines 189-192). -/
structure PlanEntry where
  src : String
  pre : Option String
  parts : List String
deriving DecidableEq, Repr

/-- Build the planning record for one input string. -/
def planEntry (tr : Translator) (cache : CacheData) (t : String) : PlanEntry :=
  if t = "" || looksRussian t then ⟨t, some t, []⟩
  else
    match cacheGet cache t with
    | some c => ⟨t, some c, []⟩
    | none => ⟨t, none, splitTextForTranslation t tr.maxChunkLen⟩

/-- Reassembly loop of lines 202-213: prefilled entries keep their
value; a translated entry takes its chunk count of translated chunks
from the flat list, joins them with single spaces, and writes the whole
string to the cache unless it is an identity fallback and fallback
caching is off. -/
def reassemble (tr : Translator) : List PlanEntry → List String → CacheData → List String × CacheData
  | [], _, c => ([], c)
  | e :: rest, flat, c =>
    match e.pre with
    | some r =>
      let p := reassemble tr rest flat c
      (r :: p.1, p.2)
    | none =>
      let cnt := e.parts.length
      let joined := joinSp (flat.take cnt)
      let c1 := if joined ≠ e.src ∨ tr.cacheFallbacks = true then cachePut c e.src joined else c
      let p := reassemble tr rest (flat.drop cnt) c1
      (joined :: p.1, p.2)

/-- Translator.translate-many, lines 156-221: plan every input string,
translate the flattened chunks through the flat pass, and reassemble.
The empty-flat early return of line 195 and the final defaulting
comprehension of line 221 coincide with the general path and are
subsumed by it.  Returns results, updated cache and provider call
log. -/
def translateMany (tr : Translator) (cache : CacheData) (texts : List String) : List String × CacheData × List PCall :=
  if texts.isEmpty then ([], cache, [])
  else
    let plan := texts.map (planEntry tr cache)
    let flat := (plan.map PlanEntry.parts).flatten
    let tf := translateFlat tr cache flat
    let ra := reassemble tr plan tf.1 tf.2.1
    (ra.1, ra.2, tf.2.2)

/-! ### The retry loop (Translator._retry_call, lines 302-324)

The wrapped function's behaviour is an oracle giving the outcome of
each attempt (indexed from zero); random.uniform is an oracle giving
the jitter sample drawn before each sleep.  Delays are rationals. -/

/-- Failure raised by a provider call: whether it is a network error
(URLError or TimeoutError, line 314) and its message (line 312). -/
structure HttpFailure where
  isNet : Bool
  msg : String
deriving DecidableEq, Repr

/-- Outcome of one attempt of the wrapped call. -/
inductive CallRes (α : Type) where
  | ok (v : α)
  | fail (e : HttpFailure)

/-- Lower-case a string (ASCII case folding, as in line 312 for the
messages occurring here). -/
def lowerStr (s : String) : String :=
  String.mk (s.data.map Char.toLower)

/-- Whether the first list occurs at the head of the second. -/
def isHeadOf : List Char → List Char → Bool
  | [], _ => true
  | _ :: _, [] => false
  | a :: as, b :: bs => a = b && isHeadOf as bs

/-- Whether the first list occurs inside the second (Python substring
containment). -/
def hasSubList (needle : List Char) : List Char → Bool
  | [] => needle.isEmpty
  | c :: rest => isHeadOf needle (c :: rest) || hasSubList needle rest

/-- Transience test of lines 312-315: the lower-cased message mentions
429, too many requests or rate limit, or the exception is a network
error.  Only transient failures are retried. -/
def isTransientFailure (e : HttpFailure) : Bool :=
  let m := lowerStr e.msg
  hasSubList ("429").data m.data ||
  hasSubList ("too many requests").data m.data ||
  hasSubList ("rate limit").data m.data ||
  e.isNet

/-- Backoff delay slept before the next attempt (lines 318-320):
exponential in the one-based attempt number, capped at the maximum
before jitter, scaled by one plus the jitter sample, clamped at zero by
the sleep call. -/
def backoffDelay (base maxD : ℚ) (attempts : Nat) (jr : ℚ) : ℚ :=
  max 0 ((min maxD (base * 2 ^ (attempts - 1))) * (1 + jr))

/-- Retry loop body: with n attempts remaining and the given zero-based
attempt index, run the oracle; success returns the value, a
non-transient failure aborts at once, a transient failure sleeps the
backoff delay (recorded in the returned list) and retries. -/
def retryGo (base maxD : ℚ) (outcomes : Nat → CallRes α) (jr : Nat → ℚ) (attempt : Nat) : Nat → Option α × List ℚ
  | 0 => (none, [])
  | n + 1 =>
    match outcomes attempt with
    | .ok v => (some v, [])
    | .fail e =>
      if isTransientFailure e then
        let d := backoffDelay base maxD (attempt + 1) (jr attempt)
        let p := retryGo base maxD outcomes jr (attempt + 1) n
        (p.1, d :: p.2)
      else (none, [])

/-- Translator.underscore-retry-underscore-call, lines 302-324: at most
maxAttempts attempts; returns the successful value or none (the caller
substitutes its fallback), together with the sequence of sleeps
performed. -/
def retryCall (maxAttempts : Nat) (base maxD : ℚ) (outcomes : Nat → CallRes α) (jr : Nat → ℚ) : Option α × List ℚ :=
  retryGo base maxD outcomes jr 0 maxAttempts

/-! ### Cache persistence (src/utils/cache.py lines 15-31) -/

/-- State of the cache file on disk: absent, present but not valid
JSON, or a valid object. -/
inductive DiskFile where
  | missing
  | corrupt
  | valid (entries : CacheData)
deriving DecidableEq

/-- TranslationCache state: the file path, the in-memory data and the
loaded flag. -/
structure CacheFileState where
  path : String
  data : CacheData
  loaded : Bool
deriving DecidableEq

/-- TranslationCache.load, lines 21-31: a no-op once loaded; otherwise,
when the path is nonempty and the file exists, valid JSON replaces the
data and a parse failure empties it; a missing file or empty path
leaves the data untouched; in every case the loaded flag is set. -/
def cacheLoad (disk : DiskFile) (st : CacheFileState) : CacheFileState :=
  if st.loaded then st
  else
    let st1 :=
      if st.path ≠ "" then
        match disk with
        | .missing => st
        | .corrupt => { st with data := [] }
        | .valid m => { st with data := m }
      else st
    { st1 with loaded := true }

/-! ### Text-likelihood heuristic (src/utils/helpers.py lines 13-25) -/

/-- Single-position match attempt of the helpers RE_NAMESPACE (both
character classes exclude the slash): a nonempty head-class run, a
colon, a nonempty head-class run. -/
def nsProbeHelpers (l : List Char) : Bool :=
  let a := (l.takeWhile isNsHead).length
  0 < a && (l.drop a).head? = some ':' &&
    !((l.drop (a + 1)).takeWhile isNsHead).isEmpty

/-- The search of the helpers RE_NAMESPACE over a string: a match
attempt at every position. -/
def nsSearchHelpers : List Char → Bool
  | [] => false
  | c :: rest => nsProbeHelpers (c :: rest) || nsSearchHelpers rest

/-- Function is-underscore-probably-underscore-text of helpers.py lines
13-25: reject the empty string, a string over the length bound, a
string without Latin letters, a string with heavy structural symbols,
or a string containing a namespaced identifier; accept the rest. -/
def isProbablyText (s : String) (maxLen : Nat := 800) : Bool :=
  if s = "" then false
  else if maxLen < s.length then false
  else if !(s.data.any isLatin) then false
  else if s.data.any isHeavy then false
  else if nsSearchHelpers s.data then false
  else true

/-- Rejection condition of the specification for the text-likelihood
heuristic, written from the claim wording: empty, or longer than the
bound, or no Latin alphabetic character, or some heavy structural
symbol, or an occurrence of the namespaced-identifier shape (a
class character, a colon, a class character, adjacent in the string). -/
def specTextRejected (s : String) (maxLen : Nat) : Prop :=
  s = "" ∨ maxLen < s.length ∨ (∀ c ∈ s.data, isLatin c = false) ∨
  (∃ c ∈ s.data, isHeavy c = true) ∨
  (∃ pre a c post, s.data = pre ++ [a, ':', c] ++ post ∧ isNsHead a = true ∧ isNsHead c = true)

/-! ### Mirror orchestrator (src/mirrorer.py)

Paths are slash-normalized strings; the filesystem is an oracle telling
which destination paths exist; the per-file processing body (extractor
plus write) is an oracle telling whether it succeeds for a given file.
Counters follow the tick increments of mirror-translate-dir. -/

/-- Whether the first string occurs inside the second. -/
def strHasSub (needle hay : String) : Bool :=
  hasSubList needle.data hay.data

/-- Whether the string ends with the given suffix. -/
def strEndsWith (p suff : String) : Bool :=
  isHeadOf suff.data.reverse p.data.reverse

/-- Replace every non-overlapping occurrence of a nonempty needle, left
to right, as Python str.replace.  Fuel is the subject length. -/
def replaceSub (needle repl : List Char) : Nat → List Char → List Char
  | 0, l => l
  | _ + 1, [] => []
  | fuel + 1, l@(c :: rest) =>
    if isHeadOf needle l && !needle.isEmpty then
      repl ++ replaceSub needle repl fuel (l.drop needle.length)
    else c :: replaceSub needle repl fuel rest

/-- Python str.replace on strings. -/
def strReplace (s needle repl : String) : String :=
  String.mk (replaceSub needle.data repl.data s.data.length s.data)

/-- Target locale of config.py (default of the TARGET-LANG setting). -/
def targetLang : String := "ru_ru"

/-- Predicate underscore-is-underscore-lang-underscore-en-underscore-us
of mirrorer.py lines 18-19. -/
def isLangEnUs (p : String) : Bool :=
  strEndsWith p ("/lang/en_us.json") && strHasSub ("/assets/") p

/-- Predicate for Patchouli book JSON, mirrorer.py lines 22-23. -/
def isPatchouli (p : String) : Bool :=
  strHasSub ("/assets/") p && strHasSub ("/patchouli_books/") p &&
  strHasSub ("/en_us/") p && strEndsWith p (".json")

/-- Predicate for tips JSON, mirrorer.py lines 26-27. -/
def isTips (p : String) : Bool :=
  strHasSub ("/assets/") p && strHasSub ("/tips/") p && strEndsWith p (".json")

/-- Predicate for FTB Quests snbt files, mirrorer.py lines 30-31. -/
def wantFtbSnbt (p : String) : Bool :=
  strHasSub ("/ftbquests/") p && strEndsWith p (".snbt")

/-- Predicate for KubeJS scripts, mirrorer.py lines 34-35. -/
def wantKubejsJs (p : String) : Bool :=
  strHasSub ("/kubejs/") p && strEndsWith p (".js")

/-- Candidate classification, mirrorer.py lines 38-45. -/
def isCandidatePath (p : String) : Bool :=
  isLangEnUs p || isPatchouli p || isTips p || wantFtbSnbt p || wantKubejsJs p

/-- Directory part of a slash path (os.path.dirname for the relative
slash paths handled here): everything before the last slash, or empty
when there is none. -/
def dirname (p : String) : String :=
  match p.data.reverse.dropWhile (fun c => c ≠ '/') with
  | [] => ""
  | _ :: rest => String.mk rest.reverse

/-- Join two slash paths (os.path.join for a relative second part). -/
def joinPath (a b : String) : String :=
  if a = "" then b else a ++ "/" ++ b

/-- Predicate underscore-dst-underscore-exists of mirrorer.py lines
48-61, over a filesystem oracle: the destination computed for the
relative source path already exists under the output root. -/
def dstExists (fsEx : String → Bool) (outRoot rel : String) : Bool :=
  if strEndsWith rel ("/lang/en_us.json") then
    fsEx (joinPath outRoot (joinPath (dirname rel) (targetLang ++ ".json")))
  else if strHasSub ("/patchouli_books/") rel && strHasSub ("/en_us/") rel then
    fsEx (joinPath outRoot (strReplace rel ("/en_us/") ("/" ++ targetLang ++ "/")))
  else if strHasSub ("/tips/") rel && strEndsWith rel (".json") then
    fsEx (joinPath outRoot rel)
  else if strEndsWith rel (".snbt") then fsEx (joinPath outRoot rel)
  else if strEndsWith rel (".js") then fsEx (joinPath outRoot rel)
  else false

/-- Result triple of underscore-process-underscore-file: matched (a
supported file type), ok (processed without error, a skip counting as
ok), skipped (skipped because the destination already exists), plus
the list of destination paths actually written. -/
def processFile (fsEx : String → Bool) (procOk : String → Bool) (outRoot pathNorm rel : String) (write : Bool) :
    (Bool × Bool × Bool) × List String :=
  if ¬ isCandidatePath pathNorm then ((false, false, false), [])
  else if write && dstExists fsEx outRoot rel then ((true, true, true), [])
  else if isLangEnUs pathNorm then
    let dst := joinPath outRoot (joinPath (dirname rel) (targetLang ++ ".json"))
    if procOk pathNorm then ((true, true, false), if write then [dst] else [])
    else ((true, false, false), [])
  else if isPatchouli pathNorm then
    let dst := joinPath outRoot (strReplace rel ("/en_us/") ("/" ++ targetLang ++ "/"))
    if procOk pathNorm then ((true, true, false), if write then [dst] else [])
    else ((true, false, false), [])
  else if isTips pathNorm then
    let dst := joinPath outRoot rel
    if procOk pathNorm then ((true, true, false), if write then [dst] else [])
    else ((true, false, false), [])
  else if wantFtbSnbt pathNorm then
    let dst := joinPath outRoot rel
    if procOk pathNorm then ((true, true, false), if write then [dst] else [])
    else ((true, false, false), [])
  else if wantKubejsJs pathNorm then
    let dst := joinPath outRoot rel
    if procOk pathNorm then ((true, true, false), if write then [dst] else [])
    else ((true, false, false), [])
  else ((false, false, false), [])

/-- Progress counters aggregated by mirror-translate-dir: matched, ok,
err, skip. -/
structure Counters where
  matched : Nat
  ok : Nat
  err : Nat
  skip : Nat
deriving DecidableEq, Repr

/-- Counter update for one completed candidate, mirrorer.py lines
273-280: a matched good result ticks ok (and skip when it was an
existing-destination skip); a matched bad result ticks err; an
unmatched result ticks neither. -/
def tickUpdate (c : Counters) (r : Bool × Bool × Bool) : Counters :=
  if r.1 then
    if r.2.1 then
      { c with matched := c.matched + 1, ok := c.ok + 1,
               skip := c.skip + (if r.2.2 then 1 else 0) }
    else { c with matched := c.matched + 1, err := c.err + 1 }
  else { c with matched := c.matched + 1 }

/-! ### The sequential archive phase (mirrorer.py lines 282-289)

The phase calls the attribute named process-jar on the jar-lang module.
Module attributes are the functions the module file defines; an absent
attribute raises AttributeError, which the surrounding except catches
and counts as an error. -/

/-- Top-level functions defined by src/processors/jar_lang.py. -/
def jarLangAttrs : List String :=
  ["_iter_jar_lang_entries", "_read_json_from_zip", "translate_from_jar"]

/-- One iteration of the archive loop: if the attribute process-jar
existed the jar would be processed (producing that jar's member
translations through the oracle) and tick ok; since attribute lookup is
what the code performs, a missing attribute raises and the handler
ticks err. -/
def jarPhaseStep (translateJar : String → List String) (st : Counters × List String) (jp : String) : Counters × List String :=
  if jarLangAttrs.contains ("process_jar") then
    ({ st.1 with matched := st.1.matched + 1, ok := st.1.ok + 1 },
     st.2 ++ translateJar jp)
  else
    ({ st.1 with matched := st.1.matched + 1, err := st.1.err + 1 }, st.2)

/-- Sequential archive phase over the prescanned jar list: returns the
final counters and every archive-member translation produced. -/
def jarPhase (translateJar : String → List String) (jars : List String) (c : Counters) : Counters × List String :=
  jars.foldl (jarPhaseStep translateJar) (c, [])

/-! ### Concrete engines used by witnesses and counterexamples -/

/-- Engine whose provider always fails (every retry loop exhausted). -/
def trFail : Translator :=
  ⟨true, true, 100, 100, ⟨fun _ => none, fun _ => none⟩⟩

/-- Engine whose provider answers every batch member with the fixed
token-free string x. -/
def trConstX : Translator :=
  ⟨true, true, 100, 100, ⟨fun l => some (l.map (fun _ => "x")), fun _ => some ("x")⟩⟩

/-- Strict engine whose provider answers any batch with the single
dropped-placeholder response of the specification example. -/
def trPrivet : Translator :=
  ⟨true, true, 100, 100, ⟨fun _ => some [("Привет")], fun _ => none⟩⟩

/-- Conditional cons used to state the chunk-packing loop invariant:
an empty accumulator contributes nothing, a nonempty one is prepended. -/
def consIfNe (c : String) (l : List String) : List String :=
  if c = "" then l else c :: l

/-! ### Helper lemmas -/

/-- Batching the empty list yields no batches. -/
theorem chunksOf_nil (n : Nat) : chunksOf n ([] : List α) = [] := by
  unfold chunksOf; rfl

/-- Batching a singleton yields the one singleton batch. -/
theorem chunksOf_singleton (n : Nat) (x : α) : chunksOf n [x] = [[x]] := by
  unfold chunksOf
  cases n with
  | zero => rfl
  | succ m => simp [chunksOfAux]

/-- Validation keeps a translation identical to its source. -/
theorem validateOut_self (tr : Translator) (s : String) : validateOut tr s s = s := by
  unfold validateOut; split <;> rfl

/-- Space-join of a cons with a nonempty tail. -/
theorem joinSp_cons (a : String) (l : List String) (h : l ≠ []) :
    joinSp (a :: l) = a ++ " " ++ joinSp l := by
  cases l with
  | nil => exact absurd rfl h
  | cons b m => rfl

/-! ### C7: the archive phase calls a function the module does not define -/

/-- Claim C7: processing a queued jar archive invokes the attribute
named process-jar on the jar-lang module, which defines only
translate-from-jar and no such function; hence every archive candidate
raises, is caught, and is counted as an error, and no archive member is
ever translated through mirror-translate-dir. -/
theorem c7_jar_phase_all_error :
    jarLangAttrs.contains ("process_jar") = false ∧
    jarLangAttrs.contains ("translate_from_jar") = true ∧
    ∀ (f : String → List String) (jars : List String) (c : Counters),
      jarPhase f jars c =
        ({ matched := c.matched + jars.length, ok := c.ok,
           err := c.err + jars.length, skip := c.skip }, []) := by
  have hc : jarLangAttrs.contains ("process_jar") = false := by decide
  refine ⟨hc, by decide, ?_⟩
  intro f jars
  induction jars with
  | nil => intro c; cases c; simp [jarPhase]
  | cons j rest ih =>
    intro c
    show List.foldl (jarPhaseStep f) (c, []) (j :: rest) = _
    rw [List.foldl_cons]
    have hstep : jarPhaseStep f (c, []) j =
        ({ c with matched := c.matched + 1, err := c.err + 1 }, []) := by
      unfold jarPhaseStep
      rw [if_neg (by decide)]
    rw [hstep]
    have hrec := ih { c with matched := c.matched + 1, err := c.err + 1 }
    rw [show List.foldl (jarPhaseStep f)
          ({ c with matched := c.matched + 1, err := c.err + 1 }, []) rest
        = jarPhase f rest { c with matched := c.matched + 1, err := c.err + 1 } from rfl,
        hrec]
    cases c
    simp [Counters.mk.injEq]
    omega

/-! ### C8: cache load idempotence and degradation -/

/-- Claim C8: cache load is idempotent (after a first load any further
load is a no-op leaving the contents unchanged) and a missing or
corrupt cache file yields an empty cache rather than failing. -/
theorem c8_cache_load_idempotent :
    (∀ (st : CacheFileState) (disk disk2 : DiskFile),
        (cacheLoad disk st).loaded = true ∧
        cacheLoad disk2 (cacheLoad disk st) = cacheLoad disk st) ∧
    (∀ p : String,
        (cacheLoad DiskFile.missing ⟨p, [], false⟩).data = [] ∧
        (cacheLoad DiskFile.corrupt ⟨p, [], false⟩).data = []) := by
  have hl : ∀ (d : DiskFile) (s : CacheFileState), (cacheLoad d s).loaded = true := by
    intro d s
    unfold cacheLoad
    split
    · assumption
    · rfl
  have hnoop : ∀ (d : DiskFile) (s : CacheFileState), s.loaded = true → cacheLoad d s = s := by
    intro d s hs
    unfold cacheLoad
    rw [if_pos hs]
  refine ⟨fun st disk disk2 => ⟨hl disk st, hnoop disk2 _ (hl disk st)⟩, fun p => ⟨?_, ?_⟩⟩
  · unfold cacheLoad
    simp only [Bool.false_eq_true, if_false]
    split <;> rfl
  · unfold cacheLoad
    simp only [Bool.false_eq_true, if_false]
    split <;> rfl

/-! ### C9: an existing destination is skipped and counted ok -/

/-- Claim C9: in write mode a candidate whose destination already
exists is skipped before any processing (nothing is written), marked
matched, ok and skipped, and the counter update increments both the ok
and skip counters and leaves the error counter unchanged. -/
theorem c9_skip_exists_counted_ok :
    ∀ (fsEx procOk : String → Bool) (outRoot pathNorm rel : String) (c : Counters),
      isCandidatePath pathNorm = true →
      dstExists fsEx outRoot rel = true →
      processFile fsEx procOk outRoot pathNorm rel true = ((true, true, true), []) ∧
      tickUpdate c (true, true, true) =
        { c with matched := c.matched + 1, ok := c.ok + 1, skip := c.skip + 1 } := by
  intro fsEx procOk outRoot pathNorm rel c hc hd
  constructor
  · unfold processFile
    rw [if_neg (by simp [hc]), if_pos (by simp [hc, hd])]
  · unfold tickUpdate
    simp

/-- Witness for C9 at a concrete language file whose target-locale
sibling already exists in the output tree. -/
theorem c9_skip_exists_counted_ok_witness :
    processFile (fun _ => true) (fun _ => true) ("out")
        ("/in/assets/m/lang/en_us.json") ("assets/m/lang/en_us.json") true
      = ((true, true, true), []) ∧
    tickUpdate ⟨0, 0, 0, 0⟩ (true, true, true) = ⟨1, 1, 0, 1⟩ := by
  have h := c9_skip_exists_counted_ok (fun _ => true) (fun _ => true) ("out")
      ("/in/assets/m/lang/en_us.json") ("assets/m/lang/en_us.json") ⟨0, 0, 0, 0⟩
      (by decide) (by decide)
  exact ⟨h.1, by rw [h.2]⟩

/-! ### C10: characterization of the text-likelihood heuristic -/

/-- A namespace probe succeeds on a class character, a colon and a
class character at the head. -/
theorem nsProbe_triple (a c : Char) (post : List Char)
    (ha : isNsHead a = true) (hc : isNsHead c = true) :
    nsProbeHelpers (a :: ':' :: c :: post) = true := by
  have hcol : isNsHead ':' = false := by decide
  unfold nsProbeHelpers
  simp [List.takeWhile_cons, ha, hcol, hc]

/-- A namespace-shaped occurrence anywhere makes the search succeed. -/
theorem nsSearch_of_triple :
    ∀ (pre : List Char) (a c : Char) (post : List Char),
      isNsHead a = true → isNsHead c = true →
      nsSearchHelpers (pre ++ [a, ':', c] ++ post) = true := by
  intro pre
  induction pre with
  | nil =>
    intro a c post ha hc
    show nsSearchHelpers (a :: ':' :: c :: post) = true
    rw [nsSearchHelpers]
    simp [nsProbe_triple a c post ha hc]
  | cons x xs ih =>
    intro a c post ha hc
    show nsSearchHelpers (x :: (xs ++ [a, ':', c] ++ post)) = true
    rw [nsSearchHelpers]
    simp only [Bool.or_eq_true]
    exact Or.inr (by simpa using ih a c post ha hc)

/-- A successful namespace probe at the head exhibits a
namespace-shaped occurrence. -/
theorem triple_of_nsProbe (l : List Char) (h : nsProbeHelpers l = true) :
    ∃ pre a c post, l = pre ++ [a, ':', c] ++ post ∧ isNsHead a = true ∧ isNsHead c = true := by
  unfold nsProbeHelpers at h
  simp only [Bool.and_eq_true, decide_eq_true_eq, Bool.not_eq_true'] at h
  obtain ⟨⟨h1, h2⟩, h3⟩ := h
  have hsplit : l.takeWhile isNsHead ++ l.dropWhile isNsHead = l :=
    List.takeWhile_append_dropWhile isNsHead l
  have hdrop : l.drop (l.takeWhile isNsHead).length = l.dropWhile isNsHead := by
    have h0 := List.drop_left (l.takeWhile isNsHead) (l.dropWhile isNsHead)
    rw [hsplit] at h0
    exact h0
  rw [hdrop] at h2
  cases hd : l.dropWhile isNsHead with
  | nil => rw [hd] at h2; simp at h2
  | cons x d2 =>
    rw [hd] at h2
    simp only [List.head?_cons, Option.some.injEq] at h2
    subst h2
    have hdrop2 : l.drop ((l.takeWhile isNsHead).length + 1) = d2 := by
      rw [← List.drop_drop, hdrop, hd]
      rfl
    rw [hdrop2] at h3
    cases hd2 : d2 with
    | nil => rw [hd2] at h3; simp at h3
    | cons c post =>
      rw [hd2] at h3
      have hc : isNsHead c = true := by
        by_contra hcf
        rw [List.takeWhile_cons, if_neg (by simpa using hcf)] at h3
        simp at h3
      have hrne : l.takeWhile isNsHead ≠ [] := by
        intro he; rw [he] at h1; simp at h1
      have ha : isNsHead ((l.takeWhile isNsHead).getLast hrne) = true := by
        have hmem := List.getLast_mem hrne
        exact List.mem_takeWhile_imp hmem
      refine ⟨(l.takeWhile isNsHead).dropLast, (l.takeWhile isNsHead).getLast hrne, c, post, ?_, ha, hc⟩
      have hlast : (l.takeWhile isNsHead).dropLast ++ [(l.takeWhile isNsHead).getLast hrne]
          = l.takeWhile isNsHead := List.dropLast_append_getLast hrne
      calc l = l.takeWhile isNsHead ++ l.dropWhile isNsHead := hsplit.symm
        _ = ((l.takeWhile isNsHead).dropLast ++ [(l.takeWhile isNsHead).getLast hrne]) ++ (':' :: c :: post) := by
              rw [hlast, hd, hd2]
        _ = (l.takeWhile isNsHead).dropLast ++ [(l.takeWhile isNsHead).getLast hrne, ':', c] ++ post := by
              simp

/-- A successful namespace search exhibits a namespace-shaped
occurrence. -/
theorem triple_of_nsSearch :
    ∀ (l : List Char), nsSearchHelpers l = true →
      ∃ pre a c post, l = pre ++ [a, ':', c] ++ post ∧ isNsHead a = true ∧ isNsHead c = true := by
  intro l
  induction l with
  | nil => intro h; rw [nsSearchHelpers] at h; simp at h
  | cons x rest ih =>
    intro h
    rw [nsSearchHelpers] at h
    have hor : nsProbeHelpers (x :: rest) = true ∨ nsSearchHelpers rest = true := by
      simpa using h
    rcases hor with h1 | h2
    · exact triple_of_nsProbe _ h1
    · obtain ⟨pre, a, c, post, heq, ha, hc⟩ := ih h2
      exact ⟨x :: pre, a, c, post, by rw [List.cons_append, List.cons_append, heq], ha, hc⟩

/-- Claim C10: the text-likelihood predicate returns false exactly for
the strings the specification rejects — empty, longer than the bound,
without Latin letters, containing a heavy structural symbol, or
containing a namespaced-identifier occurrence — and returns true
otherwise; as a Lean function it is pure and deterministic. -/
theorem c10_is_probably_text_characterization :
    ∀ (s : String) (maxLen : Nat),
      isProbablyText s maxLen = false ↔ specTextRejected s maxLen := by
  intro s maxLen
  unfold isProbablyText specTextRejected
  split_ifs with h1 h2 h3 h4 h5
  · simp only [iff_true_intro (Or.inl h1)]
  · exact iff_of_true rfl (Or.inr (Or.inl h2))
  · refine iff_of_true rfl (Or.inr (Or.inr (Or.inl ?_)))
    intro c hcmem
    have h3f : s.data.any isLatin = false := by simpa using h3
    have hne := List.any_eq_false.mp h3f c hcmem
    simpa using hne
  · refine iff_of_true rfl (Or.inr (Or.inr (Or.inr (Or.inl ?_))))
    obtain ⟨c, hc1, hc2⟩ := List.any_eq_true.mp h4
    exact ⟨c, hc1, hc2⟩
  · refine iff_of_true rfl (Or.inr (Or.inr (Or.inr (Or.inr ?_))))
    exact triple_of_nsSearch _ h5
  · refine iff_of_false (by simp) ?_
    intro hr
    rcases hr with hr | hr | hr | hr | hr
    · exact h1 hr
    · exact h2 hr
    · apply h3
      have hf : s.data.any isLatin = false :=
        List.any_eq_false.mpr (fun c hc => by simp [hr c hc])
      simp [hf]
    · obtain ⟨c, hc1, hc2⟩ := hr
      exact h4 (List.any_eq_true.mpr ⟨c, hc1, hc2⟩)
    · obtain ⟨pre, a, c, post, heq, ha, hc⟩ := hr
      exact h5 (by rw [heq]; exact nsSearch_of_triple pre a c post ha hc)

/-! ### C6: retry loop with capped, jittered exponential backoff -/

/-- Exhaustion shape of the retry loop: when every attempt fails
transiently, the loop performs one capped, jittered backoff sleep per
attempt and returns no value. -/
theorem retryGo_all_transient {α : Type} (base maxD : ℚ) (e : HttpFailure)
    (outcomes : Nat → CallRes α) (jr : Nat → ℚ)
    (hout : ∀ k, outcomes k = CallRes.fail e) (htr : isTransientFailure e = true) :
    ∀ (n att : Nat),
      retryGo base maxD outcomes jr att n =
        (none, (List.range n).map (fun k => backoffDelay base maxD (att + k + 1) (jr (att + k)))) := by
  intro n
  induction n with
  | zero => intro att; rfl
  | succ m ih =>
    intro att
    rw [retryGo, hout att]
    simp only [htr, if_true]
    rw [ih (att + 1)]
    rw [List.range_succ_eq_map]
    simp only [List.map_cons, List.map_map, Prod.mk.injEq, true_and]
    refine congrArg₂ List.cons (by simp) ?_
    apply List.map_congr_left
    intro k _
    simp only [Function.comp_apply]
    have h1 : att + 1 + k = att + (k + 1) := by omega
    rw [h1]

/-- Every backoff sleep is bounded by the capped maximum scaled by one
plus the jitter bound. -/
theorem backoffDelay_le (base maxD jit j : ℚ) (a : Nat)
    (hb : 0 ≤ base) (hm : 0 ≤ maxD) (hj : 0 ≤ jit) (hja : |j| ≤ jit) :
    backoffDelay base maxD a j ≤ maxD * (1 + jit) := by
  unfold backoffDelay
  have hpow : (0 : ℚ) ≤ base * 2 ^ (a - 1) := by positivity
  have hmin0 : (0 : ℚ) ≤ min maxD (base * 2 ^ (a - 1)) := le_min hm hpow
  have hminm : min maxD (base * 2 ^ (a - 1)) ≤ maxD := min_le_left _ _
  have hjle : 1 + j ≤ 1 + jit := by
    have := (abs_le.mp hja).2
    linarith
  have hjit0 : (0 : ℚ) ≤ 1 + jit := by linarith
  have hstep1 : min maxD (base * 2 ^ (a - 1)) * (1 + j)
      ≤ min maxD (base * 2 ^ (a - 1)) * (1 + jit) :=
    mul_le_mul_of_nonneg_left hjle hmin0
  have hstep2 : min maxD (base * 2 ^ (a - 1)) * (1 + jit) ≤ maxD * (1 + jit) :=
    mul_le_mul_of_nonneg_right hminm hjit0
  have hbound0 : (0 : ℚ) ≤ maxD * (1 + jit) := mul_nonneg hm hjit0
  exact max_le hbound0 (le_trans hstep1 hstep2)

/-- The sleep list of the retry loop is never longer than the number of
attempts remaining, and each sleep respects the backoff bound. -/
theorem retryGo_sleeps_bounded {α : Type} (base maxD jit : ℚ)
    (outcomes : Nat → CallRes α) (jr : Nat → ℚ)
    (hb : 0 ≤ base) (hm : 0 ≤ maxD) (hj : 0 ≤ jit) (hja : ∀ k, |jr k| ≤ jit) :
    ∀ (n att : Nat),
      (retryGo base maxD outcomes jr att n).2.length ≤ n ∧
      ∀ d ∈ (retryGo base maxD outcomes jr att n).2, d ≤ maxD * (1 + jit) := by
  intro n
  induction n with
  | zero => intro att; exact ⟨Nat.le_refl 0, by intro d hd; simp [retryGo] at hd⟩
  | succ m ih =>
    intro att
    rw [retryGo]
    cases houtc : outcomes att with
    | ok v => exact ⟨by simp, by intro d hd; simp at hd⟩
    | fail e =>
      by_cases htr : isTransientFailure e = true
      · simp only [htr, if_true]
        obtain ⟨ihl, ihm⟩ := ih (att + 1)
        refine ⟨by simpa using Nat.succ_le_succ ihl, ?_⟩
        intro d hd
        rcases List.mem_cons.mp hd with hd | hd
        · rw [hd]
          exact backoffDelay_le base maxD jit (jr att) (att + 1) hb hm hj (hja att)
        · exact ihm d hd
      · simp only [htr, if_false]
        exact ⟨Nat.zero_le _, by intro d hd; simp at hd⟩

/-- Claim C6: every retried provider call sleeps a capped exponential
backoff delay (doubling per attempt, capped at the configured maximum
before a bounded random jitter is applied) and is retried up to the
configured attempt bound when the failure is transient; a non-transient
failure aborts the loop immediately without sleeping; and after
exhaustion or abort the loop resolves to no value (the caller's
fallback) instead of raising. -/
theorem c6_retry_backoff :
    (∀ (α : Type) (base maxD : ℚ) (e : HttpFailure) (outcomes : Nat → CallRes α)
        (jr : Nat → ℚ) (maxA : Nat),
        (∀ k, outcomes k = CallRes.fail e) → isTransientFailure e = true →
        retryCall maxA base maxD outcomes jr =
          (none, (List.range maxA).map (fun k => backoffDelay base maxD (k + 1) (jr k)))) ∧
    (∀ (α : Type) (base maxD : ℚ) (e : HttpFailure) (outcomes : Nat → CallRes α)
        (jr : Nat → ℚ) (maxA : Nat),
        outcomes 0 = CallRes.fail e → isTransientFailure e = false → 0 < maxA →
        retryCall maxA base maxD outcomes jr = (none, [])) ∧
    (∀ (α : Type) (base maxD jit : ℚ) (outcomes : Nat → CallRes α)
        (jr : Nat → ℚ) (maxA : Nat),
        0 ≤ base → 0 ≤ maxD → 0 ≤ jit → (∀ k, |jr k| ≤ jit) →
        (retryCall maxA base maxD outcomes jr).2.length ≤ maxA ∧
        ∀ d ∈ (retryCall maxA base maxD outcomes jr).2, d ≤ maxD * (1 + jit)) := by
  refine ⟨?_, ?_, ?_⟩
  · intro α base maxD e outcomes jr maxA hout htr
    unfold retryCall
    rw [retryGo_all_transient base maxD e outcomes jr hout htr maxA 0]
    simp
  · intro α base maxD e outcomes jr maxA hout htr hpos
    unfold retryCall
    cases maxA with
    | zero => exact absurd hpos (by simp)
    | succ m =>
      rw [retryGo, hout]
      simp [htr]
  · intro α base maxD jit outcomes jr maxA hb hm hj hja
    exact retryGo_sleeps_bounded base maxD jit outcomes jr hb hm hj hja maxA 0

/-- Witness for C6: a network-timeout failure is retried with the
sleeps two-fifths of six and four-fifths of six (cap thirty not
reached, jitter one fifth), while a malformed-response failure aborts
with no sleeping; both resolve to no value. -/
theorem c6_retry_backoff_witness :
    retryCall 2 2 30 (fun _ => CallRes.fail (⟨true, "timeout"⟩ : HttpFailure)) (fun _ => (1 : ℚ) / 5)
      = ((none : Option Nat), [12 / 5, 24 / 5]) ∧
    retryCall 3 2 30 (fun _ => CallRes.fail (⟨false, "bad payload"⟩ : HttpFailure)) (fun _ => (0 : ℚ))
      = ((none : Option Nat), []) := by
  constructor
  · have h := c6_retry_backoff.1 Nat 2 30 ⟨true, "timeout"⟩
      (fun _ => CallRes.fail (⟨true, "timeout"⟩ : HttpFailure)) (fun _ => (1 : ℚ) / 5) 2
      (fun k => rfl) (by decide)
    rw [h]
    norm_num [backoffDelay, List.range_succ]
  · exact c6_retry_backoff.2.1 Nat 2 30 ⟨false, "bad payload"⟩
      (fun _ => CallRes.fail (⟨false, "bad payload"⟩ : HttpFailure)) (fun _ => (0 : ℚ)) 3
      rfl (by decide) (by norm_num)

/-! ### C3: chunk lengths and (restricted) reassembly -/

/-- A string of length zero is the empty string. -/
theorem strLen_zero_eq (a : String) (h : a.length = 0) : a = "" := by
  cases a with
  | mk d =>
    cases d with
    | nil => rfl
    | cons x xs => simp [String.length] at h

/-- Appending to a nonempty string stays nonempty. -/
theorem strAppend_ne_empty_left (a b : String) (ha : a ≠ "") : a ++ b ≠ "" := by
  intro h
  apply ha
  have hl := congrArg String.length h
  rw [String.length_append] at hl
  have h0 : ("" : String).length = 0 := rfl
  rw [h0] at hl
  exact strLen_zero_eq a (by omega)

/-- String append is associative. -/
theorem strAppend_assoc (a b c : String) : a ++ b ++ c = a ++ (b ++ c) := by
  cases a with
  | mk d1 =>
    cases b with
    | mk d2 =>
      cases c with
      | mk d3 =>
        show String.mk ((d1 ++ d2) ++ d3) = String.mk (d1 ++ (d2 ++ d3))
        rw [List.append_assoc]

/-- Every piece of a hard character split fits the length bound. -/
theorem hardSplitAux_length_le (maxLen : Nat) :
    ∀ (fuel : Nat) (l : List Char), ∀ c ∈ hardSplitAux maxLen fuel l, c.length ≤ maxLen := by
  intro fuel
  induction fuel with
  | zero => intro l c hc; simp [hardSplitAux] at hc
  | succ m ih =>
    intro l c hc
    cases l with
    | nil => simp [hardSplitAux] at hc
    | cons x rest =>
      rcases List.mem_cons.mp hc with hc | hc
      · rw [hc]
        show ((x :: rest).take maxLen).length ≤ maxLen
        rw [List.length_take]
        omega
      · exact ih _ c hc

/-- Every chunk produced by the packing loop fits the length bound,
provided the accumulator does. -/
theorem splitTextLoop_length_le (maxLen : Nat) :
    ∀ (l : List String) (cur : String), cur.length ≤ maxLen →
      ∀ c ∈ splitTextLoop maxLen cur l, c.length ≤ maxLen := by
  intro l
  induction l with
  | nil =>
    intro cur hcur c hc
    rw [splitTextLoop] at hc
    split at hc
    · rw [List.mem_singleton] at hc
      rw [hc]; exact hcur
    · simp at hc
  | cons s rest ih =>
    intro cur hcur c hc
    simp only [splitTextLoop] at hc
    by_cases hse : pyStrip s = ""
    · rw [if_pos hse] at hc
      exact ih cur hcur c hc
    · rw [if_neg hse] at hc
      by_cases hfit : (if cur = "" then pyStrip s else cur ++ " " ++ pyStrip s).length ≤ maxLen
      · rw [if_pos hfit] at hc
        exact ih _ hfit c hc
      · rw [if_neg hfit] at hc
        by_cases hsl : (pyStrip s).length ≤ maxLen
        · rw [if_pos hsl] at hc
          rcases List.mem_append.mp hc with hc | hc
          · split at hc
            · rw [List.mem_singleton] at hc; rw [hc]; exact hcur
            · simp at hc
          · exact ih _ hsl c hc
        · rw [if_neg hsl] at hc
          rcases List.mem_append.mp hc with hc | hc
          · rcases List.mem_append.mp hc with hc | hc
            · split at hc
              · rw [List.mem_singleton] at hc; rw [hc]; exact hcur
              · simp at hc
            · exact hardSplitAux_length_le maxLen _ _ c hc
          · exact ih "" (by simp) c hc

/-- Every chunk of the splitter fits the length bound. -/
theorem splitTextForTranslation_length_le (text : String) (maxLen : Nat) :
    ∀ c ∈ splitTextForTranslation text maxLen, c.length ≤ maxLen := by
  intro c hc
  simp only [splitTextForTranslation] at hc
  by_cases hq : (pyStrip text = "" || decide ((pyStrip text).length ≤ maxLen)) = true
  · rw [if_pos hq] at hc
    rw [List.mem_singleton] at hc
    subst hc
    rcases Bool.or_eq_true_iff.mp hq with h | h
    · have : pyStrip text = "" := by simpa using h
      rw [this]
      simp [String.length]
    · simpa using h
  · rw [if_neg hq] at hc
    exact splitTextLoop_length_le maxLen _ "" (by simp) c hc

/-- The packing loop never returns an empty chunk list when the
accumulator is nonempty. -/
theorem splitTextLoop_ne_nil (maxLen : Nat) :
    ∀ (l : List String) (cur : String), cur ≠ "" → splitTextLoop maxLen cur l ≠ [] := by
  intro l
  induction l with
  | nil =>
    intro cur hcur
    rw [splitTextLoop, if_pos hcur]
    simp
  | cons s rest ih =>
    intro cur hcur
    simp only [splitTextLoop]
    by_cases hse : pyStrip s = ""
    · rw [if_pos hse]; exact ih cur hcur
    · rw [if_neg hse]
      by_cases hfit : (if cur = "" then pyStrip s else cur ++ " " ++ pyStrip s).length ≤ maxLen
      · rw [if_pos hfit]
        have hcand : (if cur = "" then pyStrip s else cur ++ " " ++ pyStrip s) ≠ "" := by
          split
          · exact hse
          · exact strAppend_ne_empty_left _ _ (strAppend_ne_empty_left _ (" ") hcur)
        exact ih _ hcand
      · rw [if_neg hfit, if_pos hcur]
        by_cases hsl : (pyStrip s).length ≤ maxLen
        · rw [if_pos hsl]; simp
        · rw [if_neg hsl]; simp

/-- The single-space join of the packing loop's chunks equals the join
of accumulator and sentences, whenever every sentence is stripped,
nonempty and within the bound. -/
theorem splitTextLoop_join (maxLen : Nat) :
    ∀ (l : List String) (cur : String), cur.length ≤ maxLen →
      (∀ s ∈ l, pyStrip s = s ∧ s ≠ "" ∧ s.length ≤ maxLen) →
      joinSp (splitTextLoop maxLen cur l) = joinSp (consIfNe cur l) := by
  intro l
  induction l with
  | nil =>
    intro cur hcur hall
    rw [splitTextLoop]
    unfold consIfNe
    by_cases hc : cur = ""
    · rw [if_neg (not_not_intro hc), if_pos hc]
    · rw [if_pos hc, if_neg hc]
  | cons s rest ih =>
    intro cur hcur hall
    obtain ⟨hs1, hs2, hs3⟩ := hall s (List.mem_cons_self s rest)
    have hallr : ∀ x ∈ rest, pyStrip x = x ∧ x ≠ "" ∧ x.length ≤ maxLen :=
      fun x hx => hall x (List.mem_cons_of_mem s hx)
    simp only [splitTextLoop]
    rw [hs1, if_neg hs2]
    by_cases hc0 : cur = ""
    · subst hc0
      have he : (if ("" : String) = "" then s else "" ++ " " ++ s) = s := if_pos rfl
      rw [he, if_pos hs3, ih s hs3 hallr]
      unfold consIfNe
      rw [if_neg hs2, if_pos rfl]
    · simp only [if_neg hc0]
      by_cases hfit : (cur ++ " " ++ s).length ≤ maxLen
      · rw [if_pos hfit]
        rw [ih _ hfit hallr]
        have hcand : cur ++ " " ++ s ≠ "" :=
          strAppend_ne_empty_left _ _ (strAppend_ne_empty_left _ (" ") hc0)
        unfold consIfNe
        rw [if_neg hcand, if_neg hc0]
        cases rest with
        | nil => rfl
        | cons r2 rs =>
          show (cur ++ " " ++ s) ++ " " ++ joinSp (r2 :: rs)
              = cur ++ " " ++ joinSp (s :: r2 :: rs)
          show (cur ++ " " ++ s) ++ " " ++ joinSp (r2 :: rs)
              = cur ++ " " ++ (s ++ " " ++ joinSp (r2 :: rs))
          rw [strAppend_assoc (cur ++ " ") s (" "), strAppend_assoc (cur ++ " ") (s ++ " ") (joinSp (r2 :: rs)),
              strAppend_assoc s (" ") (joinSp (r2 :: rs))]
      · rw [if_neg hfit, if_pos (show cur ≠ "" from hc0), if_pos hs3]
        have hne := splitTextLoop_ne_nil maxLen rest s hs2
        show joinSp (cur :: splitTextLoop maxLen s rest) = joinSp (consIfNe cur (s :: rest))
        rw [joinSp_cons cur _ hne]
        rw [ih s hs3 hallr]
        unfold consIfNe
        rw [if_neg hs2, if_neg hc0]
        rw [joinSp_cons cur (s :: rest) (by simp)]

/-- Restricted reversibility of the splitter: when the text is already
stripped, every sentence is stripped, nonempty and within the bound,
and the sentences are separated by single spaces (their single-space
join reproduces the text), the single-space join of the chunks
reproduces the text. -/
theorem splitTextForTranslation_join (text : String) (maxLen : Nat)
    (hst : pyStrip text = text)
    (hs : ∀ s ∈ sentenceSplit text, pyStrip s = s ∧ s ≠ "" ∧ s.length ≤ maxLen)
    (hj : joinSp (sentenceSplit text) = text) :
    joinSp (splitTextForTranslation text maxLen) = text := by
  simp only [splitTextForTranslation]
  rw [hst]
  by_cases hq : (text = "" || decide (text.length ≤ maxLen)) = true
  · rw [if_pos hq]
    rfl
  · rw [if_neg hq]
    rw [splitTextLoop_join maxLen (sentenceSplit text) "" (by simp) hs]
    unfold consIfNe
    rw [if_pos rfl]
    exact hj

/-- Counterexample to C3 as stated: a 101-character sentence-free
string at limit 100 is longer than the maximum, hard-splits into two
chunks, and their single-space join inserts a space, so it differs from
the original string. -/
theorem c3_counterexample :
    100 < (String.mk (List.replicate 101 ('a'))).length ∧
    joinSp (splitTextForTranslation (String.mk (List.replicate 101 ('a'))) 100)
      ≠ String.mk (List.replicate 101 ('a')) := by
  constructor
  · decide
  · decide

/-- Claim C3 as amended: every chunk the splitter produces has length
at most the maximum (sentence-preferential breaking with hard splits at
the boundary), and the single-space join of the chunks reconstructs the
original string when the original is stripped, its sentences are
stripped, nonempty and within the maximum, and its sentence separators
are single spaces; a hard split or non-single-space separator breaks
reversibility. -/
theorem c3_chunking_amended :
    (∀ (text : String) (maxLen : Nat),
        ∀ chunk ∈ splitTextForTranslation text maxLen, chunk.length ≤ maxLen) ∧
    (∀ (text : String) (maxLen : Nat),
        pyStrip text = text →
        (∀ s ∈ sentenceSplit text, pyStrip s = s ∧ s ≠ "" ∧ s.length ≤ maxLen) →
        joinSp (sentenceSplit text) = text →
        joinSp (splitTextForTranslation text maxLen) = text) :=
  ⟨fun text maxLen => splitTextForTranslation_length_le text maxLen,
   fun text maxLen => splitTextForTranslation_join text maxLen⟩

/-- Witness for C3 as amended, at a concrete two-sentence string that
splits into two chunks at limit ten and rejoins to the original. -/
theorem c3_chunking_amended_witness :
    joinSp (splitTextForTranslation ("Hi there. Go now.") 10) = "Hi there. Go now." :=
  c3_chunking_amended.2 ("Hi there. Go now.") 10 (by decide) (by decide) (by decide)

/-! ### Engine lemmas for C1, C2, C4, C5 -/

/-- Reassembly preserves the number of planned entries. -/
theorem reassemble_length (tr : Translator) :
    ∀ (plan : List PlanEntry) (flat : List String) (c : CacheData),
      (reassemble tr plan flat c).1.length = plan.length := by
  intro plan
  induction plan with
  | nil => intro flat c; rfl
  | cons e rest ih =>
    intro flat c
    rw [reassemble]
    cases hpre : e.pre with
    | some r => simp [hpre, ih]
    | none => simp [hpre, ih]

/-- A prefilled plan entry keeps its prefilled value at its position. -/
theorem reassemble_pre_get (tr : Translator) :
    ∀ (plan : List PlanEntry) (flat : List String) (c : CacheData) (i : Nat)
      (e : PlanEntry) (r : String),
      plan[i]? = some e → e.pre = some r →
      (reassemble tr plan flat c).1[i]? = some r := by
  intro plan
  induction plan with
  | nil => intro flat c i e r h1 h2; simp at h1
  | cons e0 rest ih =>
    intro flat c i e r h1 h2
    cases i with
    | zero =>
      rw [List.getElem?_cons_zero, Option.some.injEq] at h1
      subst h1
      rw [reassemble, h2]
      simp
    | succ j =>
      rw [List.getElem?_cons_succ] at h1
      rw [reassemble]
      cases hpre : e0.pre with
      | some r0 =>
        simp only [hpre]
        rw [List.getElem?_cons_succ]
        exact ih flat c j e r h1 h2
      | none =>
        simp only [hpre]
        rw [List.getElem?_cons_succ]
        exact ih _ _ j e r h1 h2

/-- Every collected unique string was unresolved against the cache. -/
theorem buildUniq_not_resolved (cache : CacheData) (texts : List String) :
    ∀ t ∈ buildUniq cache texts, (skipOrCached cache t).isSome = false := by
  have aux : ∀ (ts acc : List String),
      (∀ t ∈ acc, (skipOrCached cache t).isSome = false) →
      ∀ t ∈ ts.foldl (uniqStep cache) acc, (skipOrCached cache t).isSome = false := by
    intro ts
    induction ts with
    | nil => intro acc hacc t ht; exact hacc t ht
    | cons x xs ih =>
      intro acc hacc t ht
      rw [List.foldl_cons] at ht
      apply ih _ _ t ht
      intro u hu
      unfold uniqStep at hu
      by_cases h1 : (skipOrCached cache x).isSome = true
      · rw [if_pos h1] at hu
        exact hacc u hu
      · rw [if_neg h1] at hu
        by_cases h2 : acc.contains x = true
        · rw [if_pos h2] at hu
          exact hacc u hu
        · rw [if_neg h2] at hu
          rcases List.mem_append.mp hu with hu | hu
          · exact hacc u hu
          · rw [List.mem_singleton] at hu
            subst hu
            exact Bool.eq_false_iff.mpr h1
  intro t ht
  exact aux texts [] (by intro u hu; simp at hu) t ht

/-- Every member of a batch is a member of the batched list. -/
theorem chunksOfAux_subset (n : Nat) :
    ∀ (fuel : Nat) (l c : List α), c ∈ chunksOfAux n fuel l → ∀ x ∈ c, x ∈ l := by
  intro fuel
  induction fuel with
  | zero =>
    intro l c hc x hx
    cases l with
    | nil => simp [chunksOfAux] at hc
    | cons a t =>
      have hcl : c = a :: t := by simpa [chunksOfAux] using hc
      rw [hcl] at hx
      exact hx
  | succ m ih =>
    intro l c hc x hx
    cases l with
    | nil => simp [chunksOfAux] at hc
    | cons a t =>
      by_cases hn : n = 0
      · have hcl : c = a :: t := by simpa [chunksOfAux, hn] using hc
        rw [hcl] at hx
        exact hx
      · have hc2 : c = (a :: t).take n ∨ c ∈ chunksOfAux n m ((a :: t).drop n) := by
          simpa [chunksOfAux, hn] using hc
        rcases hc2 with hc2 | hc2
        · rw [hc2] at hx
          exact List.take_subset _ _ hx
        · exact List.drop_subset _ _ (ih _ c hc2 x hx)

/-- Every string in a call emitted while resolving one batch is a
member of that batch. -/
theorem resolveBatch_calls (tr : Translator) (chunk : List String) :
    ∀ pc ∈ (resolveBatch tr chunk).2, ∀ s ∈ pc.strings, s ∈ chunk := by
  intro pc hpc s hs
  cases hb : tr.provider.batch chunk with
  | some l =>
    by_cases hlen : l.length = chunk.length
    · have hr : (resolveBatch tr chunk).2 = [PCall.batchCall chunk] := by
        simp [resolveBatch, hb, hlen]
      rw [hr] at hpc
      rw [List.mem_singleton] at hpc
      subst hpc
      simpa [PCall.strings] using hs
    · have hr : (resolveBatch tr chunk).2
          = PCall.batchCall chunk :: chunk.map PCall.singleCall := by
        simp [resolveBatch, hb, hlen, singleFallback]
      rw [hr] at hpc
      rcases List.mem_cons.mp hpc with hpc | hpc
      · subst hpc
        simpa [PCall.strings] using hs
      · obtain ⟨t, ht, hpc⟩ := List.mem_map.mp hpc
        subst hpc
        simp only [PCall.strings, List.mem_singleton] at hs
        subst hs
        exact ht
  | none =>
    have hr : (resolveBatch tr chunk).2
        = PCall.batchCall chunk :: chunk.map PCall.singleCall := by
      simp [resolveBatch, hb, singleFallback]
    rw [hr] at hpc
    rcases List.mem_cons.mp hpc with hpc | hpc
    · subst hpc
      simpa [PCall.strings] using hs
    · obtain ⟨t, ht, hpc⟩ := List.mem_map.mp hpc
      subst hpc
      simp only [PCall.strings, List.mem_singleton] at hs
      subst hs
      exact ht

/-- Every call of the batch loop has its strings inside one of the
batches. -/
theorem runBatches_calls (tr : Translator) :
    ∀ (batches : List (List String)) (cache : CacheData),
      ∀ pc ∈ (runBatches tr cache batches).2.2,
        ∃ chunk ∈ batches, ∀ s ∈ pc.strings, s ∈ chunk := by
  intro batches
  induction batches with
  | nil => intro cache pc hpc; simp [runBatches] at hpc
  | cons chunk rest ih =>
    intro cache pc hpc
    simp only [runBatches] at hpc
    rcases List.mem_append.mp hpc with hpc | hpc
    · exact ⟨chunk, List.mem_cons_self _ _,
        fun s hs => resolveBatch_calls tr chunk pc hpc s hs⟩
    · obtain ⟨c2, hc2, hforall⟩ := ih _ pc hpc
      exact ⟨c2, List.mem_cons_of_mem _ hc2, hforall⟩

/-- Every string the flat pass ever sends to the provider was
unresolved against the incoming cache: not empty, not already Russian,
not cached. -/
theorem translateFlat_calls_unresolved (tr : Translator) (cache : CacheData) (texts : List String) :
    ∀ pc ∈ (translateFlat tr cache texts).2.2, ∀ s ∈ pc.strings,
      (skipOrCached cache s).isSome = false := by
  intro pc hpc s hs
  simp only [translateFlat] at hpc
  obtain ⟨chunk, hchunk, hf⟩ := runBatches_calls tr _ cache pc hpc
  have hsu : s ∈ buildUniq cache texts :=
    chunksOfAux_subset tr.batchSize (buildUniq cache texts).length
      (buildUniq cache texts) chunk hchunk s (hf s hs)
  exact buildUniq_not_resolved cache texts s hsu

/-- Looking up in a diagonal association list is the identity (with the
key itself as the default). -/
theorem lookup_diag :
    ∀ (m : List (String × String)), (∀ p ∈ m, p.2 = p.1) →
      ∀ t : String, ((m.lookup t).getD t) = t := by
  intro m
  induction m with
  | nil => intro h t; rfl
  | cons p rest ih =>
    intro h t
    cases p with
    | mk k v =>
      have hv : v = k := h (k, v) (List.mem_cons_self _ _)
      by_cases hk : t = k
      · subst hk
        simp [List.lookup, hv]
      · have hbeq : (t == k) = false := by simpa using hk
        simp only [List.lookup, hbeq]
        exact ih (fun q hq => h q (List.mem_cons_of_mem _ hq)) t

/-- When the batch call and the single calls all fail, a batch resolves
to its own source strings, logging the batch call and one single call
per member. -/
theorem resolveBatch_fail (tr : Translator) (chunk : List String)
    (hb : tr.provider.batch chunk = none) (hs : ∀ s, tr.provider.single s = none) :
    resolveBatch tr chunk = (chunk, PCall.batchCall chunk :: chunk.map PCall.singleCall) := by
  simp only [resolveBatch, hb, singleFallback]
  simp [hs]

/-- Storing a batch whose outputs equal its sources records the
diagonal pairs. -/
theorem storeBatch_self_pairs (tr : Translator) :
    ∀ (chunk : List String) (cache : CacheData),
      (storeBatch tr chunk chunk cache).1 = chunk.map (fun s => (s, s)) := by
  intro chunk
  induction chunk with
  | nil => intro cache; rfl
  | cons s cs ih =>
    intro cache
    rw [storeBatch]
    simp [validateOut_self, ih]

/-- Under a totally failing provider the outputs-for-uniq mapping is
diagonal. -/
theorem runBatches_fail_diag (tr : Translator)
    (hb : ∀ l, tr.provider.batch l = none) (hs : ∀ s, tr.provider.single s = none) :
    ∀ (batches : List (List String)) (cache : CacheData),
      ∀ p ∈ (runBatches tr cache batches).2.1, p.2 = p.1 := by
  intro batches
  induction batches with
  | nil => intro cache p hp; simp [runBatches] at hp
  | cons chunk rest ih =>
    intro cache p hp
    have hrb : resolveBatch tr chunk
        = (chunk, PCall.batchCall chunk :: chunk.map PCall.singleCall) :=
      resolveBatch_fail tr chunk (hb chunk) hs
    simp only [runBatches, hrb] at hp
    rcases List.mem_append.mp hp with hp | hp
    · rw [storeBatch_self_pairs] at hp
      obtain ⟨s, hsmem, hps⟩ := List.mem_map.mp hp
      rw [← hps]
    · exact ih _ p hp

/-- Under a totally failing provider and an empty cache the flat pass
returns its input unchanged: every batch falls back to single calls and
every single call degrades to the source string. -/
theorem translateFlat_fail_fst (tr : Translator) (texts : List String)
    (hb : ∀ l, tr.provider.batch l = none) (hs : ∀ s, tr.provider.single s = none) :
    (translateFlat tr [] texts).1 = texts := by
  simp only [translateFlat]
  have hdiag := runBatches_fail_diag tr hb hs (chunksOf tr.batchSize (buildUniq [] texts)) []
  have hf : ∀ t : String,
      (match skipOrCached [] t with
       | some r => r
       | none =>
         (((runBatches tr [] (chunksOf tr.batchSize (buildUniq [] texts))).2.1.lookup t).getD t)) = t := by
    intro t
    by_cases hskip : (t = "" || looksRussian t) = true
    · have h1 : skipOrCached [] t = some t := by
        unfold skipOrCached
        rw [if_pos hskip]
      rw [h1]
    · have h1 : skipOrCached [] t = none := by
        unfold skipOrCached
        rw [if_neg hskip]
        rfl
      rw [h1]
      exact lookup_diag _ hdiag t
  calc texts.map _ = texts.map (fun t => t) := List.map_congr_left (fun t _ => hf t)
    _ = texts := List.map_id' texts

/-- Reassembly of a well-formed plan (prefilled entries carry no
chunks) against the flattening of its own chunk lists: each prefilled
entry yields its value and each translated entry yields the
single-space join of its own chunks, in input order. -/
theorem reassemble_flat_join (tr : Translator) :
    ∀ (plan : List PlanEntry) (c : CacheData),
      (∀ e ∈ plan, e.pre = none ∨ e.parts = []) →
      (reassemble tr plan ((plan.map PlanEntry.parts).flatten) c).1
        = plan.map (fun e =>
            match e.pre with
            | some r => r
            | none => joinSp e.parts) := by
  intro plan
  induction plan with
  | nil => intro c hwf; rfl
  | cons e rest ih =>
    intro c hwf
    have hwfr : ∀ x ∈ rest, x.pre = none ∨ x.parts = [] :=
      fun x hx => hwf x (List.mem_cons_of_mem _ hx)
    rw [List.map_cons, List.flatten_cons, reassemble]
    cases hpre : e.pre with
    | some r =>
      have hparts : e.parts = [] := by
        rcases hwf e (List.mem_cons_self _ _) with h | h
        · rw [hpre] at h; exact absurd h (by simp)
        · exact h
      simp only [hparts, List.nil_append]
      rw [List.map_cons]
      simp only [hpre]
      rw [ih c hwfr]
    | none =>
      simp only []
      rw [List.take_left, List.drop_left]
      rw [List.map_cons]
      simp only [hpre]
      rw [ih _ hwfr]

/-! ### C1: totality, length preservation and degradation to source -/

/-- Claim C1: translate-many returns a list of the same length as its
input for every provider and cache and never raises; when a batch call
fails (or returns a wrong-length list) every affected entry is resolved
by a single-item call, degrading to its own source text when that also
fails — under a totally failing provider the flat pass is the identity
— and the order is preserved: position i of the degraded result is
computed from position i of the input alone. -/
theorem c1_translate_many_total :
    (∀ (tr : Translator) (cache : CacheData) (texts : List String),
        (translateMany tr cache texts).1.length = texts.length) ∧
    (∀ (tr : Translator) (texts : List String),
        (∀ l, tr.provider.batch l = none) → (∀ s, tr.provider.single s = none) →
        (translateFlat tr [] texts).1 = texts) ∧
    (∀ (tr : Translator) (texts : List String),
        (∀ l, tr.provider.batch l = none) → (∀ s, tr.provider.single s = none) →
        (translateMany tr [] texts).1
          = texts.map (fun t =>
              if (t = "" || looksRussian t) = true then t
              else joinSp (splitTextForTranslation t tr.maxChunkLen))) := by
  refine ⟨?_, ?_, ?_⟩
  · intro tr cache texts
    by_cases hemp : texts.isEmpty = true
    · have he : texts = [] := by simpa using hemp
      subst he
      rfl
    · simp only [translateMany, if_neg hemp]
      rw [reassemble_length]
      simp
  · intro tr texts hb hs
    exact translateFlat_fail_fst tr texts hb hs
  · intro tr texts hb hs
    by_cases hemp : texts.isEmpty = true
    · have he : texts = [] := by simpa using hemp
      subst he
      rfl
    · simp only [translateMany, if_neg hemp]
      rw [translateFlat_fail_fst tr _ hb hs]
      have hwf : ∀ e ∈ texts.map (planEntry tr []), e.pre = none ∨ e.parts = [] := by
        intro e he
        obtain ⟨t, ht, hte⟩ := List.mem_map.mp he
        subst hte
        unfold planEntry
        by_cases hcond : (t = "" || looksRussian t) = true
        · rw [if_pos hcond]
          exact Or.inr rfl
        · rw [if_neg hcond]
          have hc : cacheGet [] t = none := rfl
          rw [hc]
          exact Or.inl rfl
      rw [reassemble_flat_join tr _ _ hwf, List.map_map]
      apply List.map_congr_left
      intro t _
      simp only [Function.comp_apply]
      unfold planEntry
      by_cases hcond : (t = "" || looksRussian t) = true
      · rw [if_pos hcond, if_pos hcond]
      · rw [if_neg hcond, if_neg hcond]
        have hc : cacheGet [] t = none := rfl
        rw [hc]

/-- Witness for C1: two entries keep their count through the engine,
and with a totally failing provider both degrade to their sources. -/
theorem c1_translate_many_total_witness :
    (translateMany trFail [] [("apple pie"), ("")]).1.length = 2 ∧
    (translateFlat trFail [] [("apple"), ("")]).1 = [("apple"), ("")] ∧
    (translateMany trFail [] [("apple pie"), ("")]).1 = [("apple pie"), ("")] := by
  refine ⟨?_, ?_, ?_⟩
  · exact c1_translate_many_total.1 trFail [] [("apple pie"), ("")]
  · exact c1_translate_many_total.2.1 trFail [("apple"), ("")] (fun l => rfl) (fun s => rfl)
  · rw [c1_translate_many_total.2.2 trFail [("apple pie"), ("")] (fun l => rfl) (fun s => rfl)]
    decide

/-! ### C2: strict validation discards token-mangling translations -/

/-- Claim C2: for every unique chunk, when strict mode is on and the
sorted token sequence of the provider output differs from that of the
source chunk, validation discards the translation and the chunk
resolves to its source verbatim; end to end, a single-chunk flat pass
whose provider drops a placeholder returns the source chunk. -/
theorem c2_strict_validation_discards :
    (∀ (tr : Translator) (src out : String),
        tr.strict = true → extractTokens out ≠ extractTokens src →
        validateOut tr src out = src) ∧
    (∀ (tr : Translator) (cache : CacheData) (src out : String),
        tr.strict = true → tr.provider.batch [src] = some [out] →
        src ≠ "" → looksRussian src = false → cacheGet cache src = none →
        extractTokens out ≠ extractTokens src →
        (translateFlat tr cache [src]).1 = [src]) := by
  have hval : ∀ (tr : Translator) (src out : String), tr.strict = true →
      extractTokens out ≠ extractTokens src → validateOut tr src out = src := by
    intro tr src out hstrict htok
    unfold validateOut
    rw [if_pos ⟨htok, hstrict⟩]
  refine ⟨hval, ?_⟩
  intro tr cache src out hstrict hb hne hru hcache htok
  have hcond : ¬((src = "" || looksRussian src) = true) := by simp [hne, hru]
  have hskip : skipOrCached cache src = none := by
    unfold skipOrCached
    rw [if_neg hcond, hcache]
  have huniq : buildUniq cache [src] = [src] := by
    unfold buildUniq
    rw [List.foldl_cons, List.foldl_nil]
    unfold uniqStep
    rw [hskip]
    simp
  have hvo : validateOut tr src out = src := hval tr src out hstrict htok
  have hres : resolveBatch tr [src] = ([out], [PCall.batchCall [src]]) := by
    simp only [resolveBatch, hb]
    simp
  have hstore : (storeBatch tr [src] [out] cache).1 = [(src, src)] := by
    rw [storeBatch]
    simp [hvo, storeBatch]
  simp only [translateFlat, huniq, chunksOf_singleton, runBatches, hres]
  simp only [List.map_cons, List.map_nil, hskip, hstore]
  simp [List.lookup]

/-- Witness for C2: the specification example — source with a percent-s
placeholder, provider response dropping it — resolves to the source. -/
theorem c2_strict_validation_discards_witness :
    extractTokens ("Привет") ≠ extractTokens ("Hello %s") ∧
    (translateFlat trPrivet [] [("Hello %s")]).1 = [("Hello %s")] :=
  ⟨by decide,
   c2_strict_validation_discards.2 trPrivet [] ("Hello %s") ("Привет") rfl rfl
     (by decide) (by decide) rfl (by decide)⟩

/-! ### C4: skip strings pass through and never reach the provider -/

/-- Claim C4: an input string that is empty or already
target-language-only is returned unchanged at its position, and the
provider is never called for it, neither as a batch member nor as a
single-item fallback. -/
theorem c4_skip_passthrough_no_calls :
    ∀ (tr : Translator) (cache : CacheData) (texts : List String) (i : Nat)
      (hi : i < texts.length),
      (texts[i] = "" ∨ looksRussian texts[i] = true) →
      (translateMany tr cache texts).1[i]? = some texts[i] ∧
      ∀ pc ∈ (translateMany tr cache texts).2.2, texts[i] ∉ pc.strings := by
  intro tr cache texts i hi hskip
  have hne : ¬(texts.isEmpty = true) := by
    cases texts with
    | nil => simp at hi
    | cons a t => simp
  have hcond : (texts[i] = "" || looksRussian texts[i]) = true := by
    rcases hskip with h | h <;> simp [h]
  have hplan : (texts.map (planEntry tr cache))[i]? = some (planEntry tr cache texts[i]) := by
    rw [List.getElem?_map, List.getElem?_eq_getElem hi]
    rfl
  have hpre : (planEntry tr cache texts[i]).pre = some texts[i] := by
    unfold planEntry
    rw [if_pos hcond]
  constructor
  · simp only [translateMany, if_neg hne]
    exact reassemble_pre_get tr _ _ _ i _ texts[i] hplan hpre
  · intro pc hpc hmem
    have hpc2 : pc ∈ (translateFlat tr cache
        (((texts.map (planEntry tr cache)).map PlanEntry.parts).flatten)).2.2 := by
      simpa only [translateMany, if_neg hne] using hpc
    have hfalse : (skipOrCached cache texts[i]).isSome = false :=
      translateFlat_calls_unresolved tr cache _ pc hpc2 texts[i] hmem
    have htrue : (skipOrCached cache texts[i]).isSome = true := by
      unfold skipOrCached
      rw [if_pos hcond]
      rfl
    rw [hfalse] at htrue
    exact Bool.false_ne_true htrue

/-- Witness for C4: a Russian first entry passes through unchanged and
occurs in no provider call of the run. -/
theorem c4_skip_passthrough_no_calls_witness :
    (translateMany trConstX [] [("Привет"), ("hello")]).1[0]? = some ("Привет") ∧
    ((translateMany trConstX [] [("Привет"), ("hello")]).2.2.all
        (fun pc => decide (("Привет") ∉ pc.strings))) = true := by
  have h := c4_skip_passthrough_no_calls trConstX [] [("Привет"), ("hello")] 0
      (by decide) (Or.inr (by decide))
  refine ⟨h.1, ?_⟩
  rw [List.all_eq_true]
  intro pc hpc
  simpa using h.2 pc hpc

/-! ### C5: untouched strings -/

/-- Counterexample to C5 as stated: the string one-two-three has no
protected tokens and no Latin letters, yet (not being Russian either)
it is sent to the provider and comes back changed. -/
theorem c5_counterexample :
    extractTokens ("123") = [] ∧
    (String.data ("123")).any isLatin = false ∧
    (translateMany trConstX [] [("123")]).1 ≠ [("123")] := by
  refine ⟨by decide, by decide, by decide⟩

/-- Claim C5 as amended: a string with no protected tokens, no Latin
letters and at least one Cyrillic letter is untouched by translate-many
(the engine treats it as already target-language text). -/
theorem c5_cyrillic_untouched :
    ∀ (tr : Translator) (cache : CacheData) (s : String),
      extractTokens s = [] → s.data.any isLatin = false → s.data.any isCyr = true →
      (translateMany tr cache [s]).1 = [s] := by
  intro tr cache s htok hlat hcyr
  have hru : looksRussian s = true := by
    unfold looksRussian
    rw [hcyr, hlat]
    rfl
  have hne : ¬(([s] : List String).isEmpty = true) := by simp
  have hplan : planEntry tr cache s = ⟨s, some s, []⟩ := by
    unfold planEntry
    rw [if_pos (by simp [hru])]
  simp only [translateMany, if_neg hne, List.map_cons, List.map_nil, hplan]
  rfl

/-- Witness for C5 as amended at the Russian greeting. -/
theorem c5_cyrillic_untouched_witness :
    (translateMany trConstX [] [("Привет")]).1 = [("Привет")] :=
  c5_cyrillic_untouched trConstX [] ("Привет") (by decide) (by decide) (by decide)

end MinecraftTranslator
